import Mathlib

/-!
# Verification of the Sinkhorn divergence routines in `bary.py`

Shallow embedding of the four functions of the repository
(`sinkhorn`, `sinkhorn_mk`, `_uv_iteration`, `Dsinkhorn_reg`) over the
real numbers, with Mathlib matrices.  The NumPy arrays become functions
out of `Fin`-indexed (or subtype-indexed, after the zero filter) types;
`np.reciprocal` becomes the real inverse (entrywise), `@` becomes matrix
multiplication, `*` on arrays becomes the Hadamard product, and the row
filter `A[I,:]` with `I = r > 0` becomes restriction of the row index to
the subtype `{i // 0 < r i}`.
-/

open scoped BigOperators
open scoped Classical
open scoped Matrix

set_option maxRecDepth 4000

noncomputable section

/-- Entrywise reciprocal of a matrix, the embedding of `np.reciprocal`
applied to a 2-D array.  (`(0 : ℝ)⁻¹ = 0`; none of the theorems below
rely on the value of the reciprocal at `0` except where noted.) -/
def recipM {α β : Type} (A : Matrix α β ℝ) : Matrix α β ℝ :=
  Matrix.of fun i j => (A i j)⁻¹

/-- Entrywise product of two matrices, the embedding of NumPy `*`
on two arrays of the same shape. -/
def emul {α β : Type} (A B : Matrix α β ℝ) : Matrix α β ℝ :=
  Matrix.of fun i j => A i j * B i j

/-- The all-ones matrix, the embedding of `np.ones((n,k))`. -/
def onesM {α β : Type} : Matrix α β ℝ :=
  Matrix.of fun _ _ => 1

/-- One pass of the Sinkhorn update
`x ← (diag(1/r) @ K) @ (c * 1/(Kᵀ @ (1/x)))`, the body of the `for`
loop of `_uv_iteration` (with the precomputed `R = diag(1/r) @ K`
folded back in). -/
def sinkStep {ι κ γ : Type} [Fintype ι] [Fintype κ] [DecidableEq ι]
    (r : ι → ℝ) (c : Matrix κ γ ℝ) (K : Matrix ι κ ℝ)
    (x : Matrix ι γ ℝ) : Matrix ι γ ℝ :=
  Matrix.diagonal (fun i => (r i)⁻¹) * K * emul c (recipM (Kᵀ * recipM x))

/-- Embedding of `_uv_iteration(r, c, M, K, iterations)` from
`src/bary.py`: initialize `x = np.ones((n,k))`, precompute
`R = np.diag(np.reciprocal(r)) @ K`, run the `for` loop
`x = R @ (c * np.reciprocal(np.transpose(K) @ np.reciprocal(x)))`
for `iterations` steps, then return
`(u, v) = (np.reciprocal(x), c * np.reciprocal(np.transpose(K) @ u))`.
The parameter `M` is accepted and never read, exactly as in the source. -/
def uv_iteration {ι κ γ : Type} [Fintype ι] [Fintype κ] [DecidableEq ι]
    (r : ι → ℝ) (c : Matrix κ γ ℝ) (M K : Matrix ι κ ℝ)
    (iterations : ℕ) : Matrix ι γ ℝ × Matrix κ γ ℝ :=
  let R : Matrix ι κ ℝ := Matrix.diagonal (fun i => (r i)⁻¹) * K
  let x : Matrix ι γ ℝ :=
    (List.range iterations).foldl
      (fun x _ => R * emul c (recipM (Kᵀ * recipM x))) onesM
  let u : Matrix ι γ ℝ := recipM x
  let v : Matrix κ γ ℝ := emul c (recipM (Kᵀ * u))
  (u, v)

/-- The positive-row index set: the embedding of the boolean mask
`I = r > 0` used by `sinkhorn_mk` and `Dsinkhorn_reg` to drop rows. -/
abbrev posIdx {n : ℕ} (r : Fin n → ℝ) : Type := {i : Fin n // 0 < r i}

/-- `r[I]`: the reference vector restricted to its positive entries. -/
def filterVec {n : ℕ} (r : Fin n → ℝ) : posIdx r → ℝ :=
  fun i => r i.val

/-- `A[I,:]`: a matrix restricted to the rows where `r` is positive. -/
def filterRows {n : ℕ} {β : Type} (r : Fin n → ℝ) (A : Matrix (Fin n) β ℝ) :
    Matrix (posIdx r) β ℝ :=
  Matrix.of fun i j => A i.val j

/-- Embedding of `sinkhorn_mk(r, c, M, K, iterations)` from `src/bary.py`
for a 2-D `c`: filter the rows of `r`, `M`, `K` by `r > 0`, run the
iteration, and return `np.sum(u * ((K * M) @ v), axis=0)`. -/
def sinkhorn_mk {n m k : ℕ} (r : Fin n → ℝ) (c : Matrix (Fin m) (Fin k) ℝ)
    (M K : Matrix (Fin n) (Fin m) ℝ) (iterations : ℕ) : Fin k → ℝ :=
  let uv := uv_iteration (filterVec r) c (filterRows r M) (filterRows r K) iterations
  fun j => ∑ i : posIdx r,
    (emul uv.1 (emul (filterRows r K) (filterRows r M) * uv.2)) i j

/-- Embedding of `np.reshape(c, (len(c), 1))`: the reshape a 1-D `c`
undergoes in `sinkhorn_mk` and `Dsinkhorn_reg`. -/
def reshapeC {m : ℕ} (c : Fin m → ℝ) : Matrix (Fin m) (Fin 1) ℝ :=
  Matrix.of fun i _ => c i

/-- Embedding of `sinkhorn_mk` when the caller passes a 1-D `c`
(the `len(np.shape(c)) == 1` branch reshapes it to `(m, 1)`). -/
def sinkhorn_mk_flat {n m : ℕ} (r : Fin n → ℝ) (c : Fin m → ℝ)
    (M K : Matrix (Fin n) (Fin m) ℝ) (iterations : ℕ) : Fin 1 → ℝ :=
  sinkhorn_mk r (reshapeC c) M K iterations

/-- Embedding of `sinkhorn(r, c, M, l, iterations)` from `src/bary.py`:
build `K = np.exp(-l * M)` and call `sinkhorn_mk`. -/
def sinkhorn {n m k : ℕ} (r : Fin n → ℝ) (c : Matrix (Fin m) (Fin k) ℝ)
    (M : Matrix (Fin n) (Fin m) ℝ) (l : ℝ) (iterations : ℕ) : Fin k → ℝ :=
  let K : Matrix (Fin n) (Fin m) ℝ := Matrix.of fun i j => Real.exp (-l * M i j)
  sinkhorn_mk r c M K iterations

/-- Embedding of `Dsinkhorn_reg(r, c, M, l, K, iterations)` from
`src/bary.py` for a 2-D `c`: filter rows by `r > 0`, run the iteration,
keep `u`, and return the `(n, k)` array `alpha` that is `np.log(u) / l`
on the kept rows and `0` on the dropped rows. -/
def Dsinkhorn_reg {n m k : ℕ} (r : Fin n → ℝ) (c : Matrix (Fin m) (Fin k) ℝ)
    (M : Matrix (Fin n) (Fin m) ℝ) (l : ℝ) (K : Matrix (Fin n) (Fin m) ℝ)
    (iterations : ℕ) : Matrix (Fin n) (Fin k) ℝ :=
  let u := (uv_iteration (filterVec r) c (filterRows r M) (filterRows r K) iterations).1
  Matrix.of fun i j => if h : 0 < r i then Real.log (u ⟨i, h⟩ j) / l else 0

/-! ## Spec-side definitions

These are written from the words of the specification, to be compared
with the embeddings above. -/

/-- The scaling iteration exactly as §4.2 of the spec words it:
`x` starts at all ones, `R = diag(1/r)·K` is precomputed once, the
update `x ← R·(c ⊙ 1/(Kᵀ·(1/x)))` is repeated `T` times, and the
output is `u = 1/x`, `v = c ⊙ 1/(Kᵀ·u)`.  The spec's algorithm never
reads the distance matrix, so this definition takes no `M`. -/
def uv_iteration_spec {ι κ γ : Type} [Fintype ι] [Fintype κ] [DecidableEq ι]
    (r : ι → ℝ) (c : Matrix κ γ ℝ) (K : Matrix ι κ ℝ) (T : ℕ) :
    Matrix ι γ ℝ × Matrix κ γ ℝ :=
  let R : Matrix ι κ ℝ := Matrix.diagonal (fun i => (r i)⁻¹) * K
  let x : Matrix ι γ ℝ := (fun x => R * emul c (recipM (Kᵀ * recipM x)))^[T] onesM
  let u : Matrix ι γ ℝ := recipM x
  let v : Matrix κ γ ℝ := emul c (recipM (Kᵀ * u))
  (u, v)

/-- The spec's row filter: §4.3 says to "drop locations where `r` is
exactly zero", i.e. keep the rows where `r i ≠ 0`. -/
abbrev nzIdx {n : ℕ} (r : Fin n → ℝ) : Type := {i : Fin n // r i ≠ 0}

/-- The reference vector with its exactly-zero entries dropped. -/
def dropZeroVec {n : ℕ} (r : Fin n → ℝ) : nzIdx r → ℝ :=
  fun i => r i.val

/-- A matrix restricted to the rows where `r` is nonzero. -/
def dropZeroRows {n : ℕ} {β : Type} (r : Fin n → ℝ) (A : Matrix (Fin n) β ℝ) :
    Matrix (nzIdx r) β ℝ :=
  Matrix.of fun i j => A i.val j

/-- The divergence readout exactly as §4.3 of the spec words it: drop
the locations where `r` is exactly zero, run the scaling iteration on
the filtered inputs, and return for each target measure the sum over
the remaining source locations of `u ⊙ ((K ⊙ M)·v)`. -/
def sinkhorn_mk_spec {n m k : ℕ} (r : Fin n → ℝ) (c : Matrix (Fin m) (Fin k) ℝ)
    (M K : Matrix (Fin n) (Fin m) ℝ) (T : ℕ) : Fin k → ℝ :=
  let uv := uv_iteration (dropZeroVec r) c (dropZeroRows r M) (dropZeroRows r K) T
  fun j => ∑ i : nzIdx r,
    (emul uv.1 (emul (dropZeroRows r K) (dropZeroRows r M) * uv.2)) i j

/-! ## Auxiliary definitions for the theorems -/

/-- Reindex the rows of a matrix along an equivalence of index types. -/
def rowComp {ι ι' β : Type} (e : ι ≃ ι') (A : Matrix ι' β ℝ) : Matrix ι β ℝ :=
  Matrix.of fun i j => A (e i) j

/-- The single column `j` of a matrix, as an `(· × 1)` matrix: the
embedding of the NumPy slice `c[:, j:j+1]`. -/
def colM {α γ : Type} (A : Matrix α γ ℝ) (j : γ) : Matrix α (Fin 1) ℝ :=
  Matrix.of fun i _ => A i j

/-- For a nonnegative reference vector, the rows kept by the code
(`r i > 0`) and the rows kept by the spec (`r i ≠ 0`) coincide. -/
def posNzEquiv {n : ℕ} (r : Fin n → ℝ) (h : ∀ i, 0 ≤ r i) :
    posIdx r ≃ nzIdx r where
  toFun i := ⟨i.val, ne_of_gt i.prop⟩
  invFun i := ⟨i.val, lt_of_le_of_ne (h i.val) (Ne.symm i.prop)⟩
  left_inv i := rfl
  right_inv i := rfl

/-- Concrete inputs used to instantiate the theorems below. -/
def oneVec1 : Fin 1 → ℝ := fun _ => 1

/-- The length-1 zero reference vector. -/
def zeroVec1 : Fin 1 → ℝ := fun _ => 0

/-- The 1×1 all-ones matrix. -/
def oneMat11 : Matrix (Fin 1) (Fin 1) ℝ := Matrix.of fun _ _ => 1

/-- The 1×1 zero matrix. -/
def zeroMat11 : Matrix (Fin 1) (Fin 1) ℝ := Matrix.of fun _ _ => 0

/-! ## A float-semantics model of the same code

The embedding over `ℝ` above reads the reciprocal of an exact zero as
`0` (`(0 : ℝ)⁻¹ = 0`), while NumPy's float64 arithmetic produces `inf`
there and `inf * 0 = nan` downstream.  That convention is irrelevant to
the structural, equality and shape claims (the reciprocal appears
identically on both sides), but it decides the sign claim.  The model
below therefore re-embeds the same source functions over IEEE-754-style
extended values: `nan`, `+inf`, `-inf`, and finite values carried
exactly as rationals.  Finite arithmetic is exact (no rounding, no
overflow/underflow), special values follow IEEE-754 as NumPy does:
`x + nan = nan`, `inf + (-inf) = nan`, `inf * 0 = nan`,
`np.reciprocal(0.0) = inf`, `1/inf = 0`, and comparisons with `nan`
are false.  Signed zero is not modelled (`0` behaves as `+0.0`,
matching every value that arises in the traces below). -/

/-- IEEE-754-style extended value: `nan`, the two infinities, or an
exact finite value. -/
inductive FP where
  | nan : FP
  | inf : FP
  | ninf : FP
  | fin : ℚ → FP
deriving DecidableEq

/-- IEEE-754 addition on extended values (finite part exact). -/
def FP.add : FP → FP → FP
  | nan, _ => nan
  | _, nan => nan
  | inf, ninf => nan
  | ninf, inf => nan
  | inf, _ => inf
  | _, inf => inf
  | ninf, _ => ninf
  | _, ninf => ninf
  | fin a, fin b => fin (a + b)

/-- IEEE-754 multiplication on extended values: `±inf * 0 = nan`,
signs of infinities follow the finite factor's sign. -/
def FP.mul : FP → FP → FP
  | nan, _ => nan
  | _, nan => nan
  | inf, inf => inf
  | inf, ninf => ninf
  | ninf, inf => ninf
  | ninf, ninf => inf
  | inf, fin b => if 0 < b then inf else if b < 0 then ninf else nan
  | fin a, inf => if 0 < a then inf else if a < 0 then ninf else nan
  | ninf, fin b => if 0 < b then ninf else if b < 0 then inf else nan
  | fin a, ninf => if 0 < a then ninf else if a < 0 then inf else nan
  | fin a, fin b => fin (a * b)

/-- `np.reciprocal` on extended values: reciprocal of an exact zero is
`inf` (as for `+0.0`), reciprocal of an infinity is `0`. -/
def FP.recip : FP → FP
  | nan => nan
  | inf => fin 0
  | ninf => fin 0
  | fin a => if a = 0 then inf else fin a⁻¹

/-- The float comparison `x > 0` (false on `nan`), used by the row
filter `r > 0`. -/
def FP.pos : FP → Prop
  | inf => True
  | fin a => 0 < a
  | _ => False

/-- The float comparison `x >= 0` (false on `nan`). -/
def FP.nonneg : FP → Prop
  | inf => True
  | fin a => 0 ≤ a
  | _ => False

/-- The value is an exact finite nonnegative real. -/
def FP.isNN (a : FP) : Prop := ∃ q : ℚ, a = FP.fin q ∧ 0 ≤ q

/-- The value is an exact finite strictly positive real. -/
def FP.isPos (a : FP) : Prop := ∃ q : ℚ, a = FP.fin q ∧ 0 < q

instance (a : FP) : Decidable (FP.pos a) :=
  match a with
  | .nan => isFalse fun h => h
  | .inf => isTrue trivial
  | .ninf => isFalse fun h => h
  | .fin q => inferInstanceAs (Decidable (0 < q))

instance (a : FP) : Decidable (FP.nonneg a) :=
  match a with
  | .nan => isFalse fun h => h
  | .inf => isTrue trivial
  | .ninf => isFalse fun h => h
  | .fin q => inferInstanceAs (Decidable (0 ≤ q))

instance : Mul FP := ⟨FP.mul⟩

instance : Zero FP := ⟨FP.fin 0⟩

instance : Add FP := ⟨FP.add⟩

instance : AddCommMonoid FP where
  add := (· + ·)
  zero := 0
  nsmul := nsmulRec
  add_assoc a b c := by
    show FP.add (FP.add a b) c = FP.add a (FP.add b c)
    cases a <;> cases b <;> cases c <;> simp [FP.add, add_assoc]
  zero_add a := by
    show FP.add (FP.fin 0) a = a
    cases a <;> simp [FP.add]
  add_zero a := by
    show FP.add a (FP.fin 0) = a
    cases a <;> simp [FP.add]
  add_comm a b := by
    show FP.add a b = FP.add b a
    cases a <;> cases b <;> simp [FP.add, add_comm]

instance : One FP := ⟨FP.fin 1⟩

namespace FloatModel

/-- Entrywise `np.reciprocal` in float semantics. -/
def recipM {α β : Type} (A : Matrix α β FP) : Matrix α β FP :=
  Matrix.of fun i j => FP.recip (A i j)

/-- Entrywise NumPy `*` in float semantics. -/
def emul {α β : Type} (A B : Matrix α β FP) : Matrix α β FP :=
  Matrix.of fun i j => A i j * B i j

/-- `np.ones((n,k))` in float semantics. -/
def onesM {α β : Type} : Matrix α β FP :=
  Matrix.of fun _ _ => 1

/-- One pass of the Sinkhorn update in float semantics (the loop body
of `_uv_iteration`, with `R = diag(1/r) @ K` folded back in). -/
def sinkStep {ι κ γ : Type} [Fintype ι] [Fintype κ] [DecidableEq ι]
    (r : ι → FP) (c : Matrix κ γ FP) (K : Matrix ι κ FP)
    (x : Matrix ι γ FP) : Matrix ι γ FP :=
  Matrix.diagonal (fun i => FP.recip (r i)) * K * emul c (recipM (Kᵀ * recipM x))

/-- `_uv_iteration(r, c, M, K, iterations)` in float semantics: same
structure as the embedding over `ℝ`, with `np.reciprocal` given its
IEEE behaviour at zero and infinity. -/
def uv_iteration {ι κ γ : Type} [Fintype ι] [Fintype κ] [DecidableEq ι]
    (r : ι → FP) (c : Matrix κ γ FP) (M K : Matrix ι κ FP)
    (iterations : ℕ) : Matrix ι γ FP × Matrix κ γ FP :=
  let R : Matrix ι κ FP := Matrix.diagonal (fun i => FP.recip (r i)) * K
  let x : Matrix ι γ FP :=
    (List.range iterations).foldl
      (fun x _ => R * emul c (recipM (Kᵀ * recipM x))) onesM
  let u : Matrix ι γ FP := recipM x
  let v : Matrix κ γ FP := emul c (recipM (Kᵀ * u))
  (u, v)

/-- The boolean mask `I = r > 0` in float semantics. -/
abbrev posIdx {n : ℕ} (r : Fin n → FP) : Type := {i : Fin n // FP.pos (r i)}

/-- `r[I]` in float semantics. -/
def filterVec {n : ℕ} (r : Fin n → FP) : posIdx r → FP :=
  fun i => r i.val

/-- `A[I,:]` in float semantics. -/
def filterRows {n : ℕ} {β : Type} (r : Fin n → FP) (A : Matrix (Fin n) β FP) :
    Matrix (posIdx r) β FP :=
  Matrix.of fun i j => A i.val j

/-- `sinkhorn_mk(r, c, M, K, iterations)` in float semantics for a 2-D
`c`: the zero filter, the iteration, and the readout
`np.sum(u * ((K * M) @ v), axis=0)`, as in the source. -/
def sinkhorn_mk {n m k : ℕ} (r : Fin n → FP) (c : Matrix (Fin m) (Fin k) FP)
    (M K : Matrix (Fin n) (Fin m) FP) (iterations : ℕ) : Fin k → FP :=
  let uv := uv_iteration (filterVec r) c (filterRows r M) (filterRows r K) iterations
  fun j => ∑ i : posIdx r,
    (emul uv.1 (emul (filterRows r K) (filterRows r M) * uv.2)) i j

end FloatModel

/-- The float reference vector `[1.0]`. -/
def fpOneV : Fin 1 → FP := fun _ => FP.fin 1

/-- The 1×1 float matrix `[[1.0]]`. -/
def fpOneM : Matrix (Fin 1) (Fin 1) FP := Matrix.of fun _ _ => FP.fin 1

/-- The 1×1 float matrix `[[0.0]]`. -/
def fpZeroM : Matrix (Fin 1) (Fin 1) FP := Matrix.of fun _ _ => FP.fin 0

/-- The filter `r > 0` keeps exactly one row of `[1.0]`. -/
instance : Unique (FloatModel.posIdx fpOneV) where
  default := ⟨0, one_pos⟩
  uniq a := Subtype.ext (Subsingleton.elim _ _)

/-- The zero working matrix on the filtered index of `[1.0]`: the value
of `x` after the first update on the counterexample input. -/
def fpZ : Matrix (FloatModel.posIdx fpOneV) (Fin 1) FP :=
  Matrix.of fun _ _ => FP.fin 0

/-! ## Basic lemmas about the iteration -/

/-- A `for i in range(n)` loop whose body does not read the loop
variable is an `n`-fold iterate. -/
theorem foldl_range_const {α : Type} (f : α → α) (a : α) (n : ℕ) :
    (List.range n).foldl (fun x _ => f x) a = f^[n] a := by
  induction n with
  | zero => rfl
  | succ n ih =>
      rw [List.range_succ, List.foldl_append, ih, List.foldl_cons, List.foldl_nil,
        Function.iterate_succ_apply']

/-- Closed form of `uv_iteration`: the working matrix after the loop is
the `T`-fold `sinkStep` iterate of the all-ones matrix, and `(u, v)`
are read off from it. -/
theorem uv_iteration_eq {ι κ γ : Type} [Fintype ι] [Fintype κ] [DecidableEq ι]
    (r : ι → ℝ) (c : Matrix κ γ ℝ) (M K : Matrix ι κ ℝ) (T : ℕ) :
    uv_iteration r c M K T =
      (recipM ((sinkStep r c K)^[T] onesM),
       emul c (recipM (Kᵀ * recipM ((sinkStep r c K)^[T] onesM)))) := by
  simp only [uv_iteration, foldl_range_const]
  rfl

/-! ## Column extraction commutes with the iteration -/

theorem colM_mul {α β γ' : Type} [Fintype β] (A : Matrix α β ℝ)
    (B : Matrix β γ' ℝ) (j : γ') : colM (A * B) j = A * colM B j := by
  ext i j'
  simp [colM, Matrix.mul_apply]

theorem colM_emul {α γ' : Type} (A B : Matrix α γ' ℝ) (j : γ') :
    colM (emul A B) j = emul (colM A j) (colM B j) := rfl

theorem colM_recipM {α γ' : Type} (A : Matrix α γ' ℝ) (j : γ') :
    colM (recipM A) j = recipM (colM A j) := rfl

theorem colM_sinkStep {ι κ γ : Type} [Fintype ι] [Fintype κ] [DecidableEq ι]
    (r : ι → ℝ) (c : Matrix κ γ ℝ) (K : Matrix ι κ ℝ) (x : Matrix ι γ ℝ)
    (j : γ) : colM (sinkStep r c K x) j = sinkStep r (colM c j) K (colM x j) := by
  unfold sinkStep
  rw [colM_mul, colM_emul, colM_recipM, colM_mul, colM_recipM]

theorem colM_sinkStep_iterate {ι κ γ : Type} [Fintype ι] [Fintype κ]
    [DecidableEq ι] (r : ι → ℝ) (c : Matrix κ γ ℝ) (K : Matrix ι κ ℝ)
    (T : ℕ) (j : γ) :
    colM ((sinkStep r c K)^[T] onesM) j = (sinkStep r (colM c j) K)^[T] onesM := by
  induction T with
  | zero => rfl
  | succ T ih =>
      rw [Function.iterate_succ_apply', Function.iterate_succ_apply',
        colM_sinkStep, ih]

/-- Per-column decomposition of `sinkhorn_mk`: entry `j` of the batch
result is the single entry of the result on the single column
`c[:, j:j+1]`. -/
theorem sinkhorn_mk_column {n m k : ℕ} (r : Fin n → ℝ)
    (c : Matrix (Fin m) (Fin k) ℝ) (M K : Matrix (Fin n) (Fin m) ℝ)
    (T : ℕ) (j : Fin k) :
    sinkhorn_mk r c M K T j = sinkhorn_mk r (colM c j) M K T 0 := by
  simp only [sinkhorn_mk, uv_iteration_eq, ← colM_sinkStep_iterate]
  apply Finset.sum_congr rfl
  intro i _
  simp [colM, emul, recipM, Matrix.mul_apply]

/-! ## Row reindexing commutes with the iteration -/

theorem rowComp_mul {ι ι' κ γ' : Type} [Fintype κ] (e : ι ≃ ι')
    (A : Matrix ι' κ ℝ) (B : Matrix κ γ' ℝ) :
    rowComp e A * B = rowComp e (A * B) := by
  ext i j
  simp [rowComp, Matrix.mul_apply]

theorem rowComp_diag_inv_mul {ι ι' κ : Type} [Fintype ι] [Fintype ι']
    [DecidableEq ι] [DecidableEq ι'] (e : ι ≃ ι') (r : ι' → ℝ)
    (K : Matrix ι' κ ℝ) :
    Matrix.diagonal (fun i => (r (e i))⁻¹) * rowComp e K
      = rowComp e (Matrix.diagonal (fun i => (r i)⁻¹) * K) := by
  ext i j
  simp [rowComp, Matrix.diagonal_mul]

theorem rowComp_transpose_mul {ι ι' κ γ' : Type} [Fintype ι] [Fintype ι']
    (e : ι ≃ ι') (K : Matrix ι' κ ℝ) (z : Matrix ι' γ' ℝ) :
    (rowComp e K)ᵀ * rowComp e z = Kᵀ * z := by
  ext t j
  simp only [Matrix.mul_apply, Matrix.transpose_apply, rowComp, Matrix.of_apply]
  exact Equiv.sum_comp e fun i' => K i' t * z i' j

theorem rowComp_recipM {ι ι' κ : Type} (e : ι ≃ ι') (A : Matrix ι' κ ℝ) :
    recipM (rowComp e A) = rowComp e (recipM A) := rfl

theorem rowComp_emul {ι ι' κ : Type} (e : ι ≃ ι') (A B : Matrix ι' κ ℝ) :
    emul (rowComp e A) (rowComp e B) = rowComp e (emul A B) := rfl

theorem rowComp_sinkStep {ι ι' κ γ : Type} [Fintype ι] [Fintype ι']
    [DecidableEq ι] [DecidableEq ι'] [Fintype κ] (e : ι ≃ ι')
    (r : ι' → ℝ) (c : Matrix κ γ ℝ) (K : Matrix ι' κ ℝ) (x : Matrix ι' γ ℝ) :
    sinkStep (fun i => r (e i)) c (rowComp e K) (rowComp e x)
      = rowComp e (sinkStep r c K x) := by
  unfold sinkStep
  rw [rowComp_recipM, rowComp_transpose_mul, rowComp_diag_inv_mul, rowComp_mul]

theorem rowComp_sinkStep_iterate {ι ι' κ γ : Type} [Fintype ι] [Fintype ι']
    [DecidableEq ι] [DecidableEq ι'] [Fintype κ] (e : ι ≃ ι')
    (r : ι' → ℝ) (c : Matrix κ γ ℝ) (K : Matrix ι' κ ℝ) (T : ℕ) :
    (sinkStep (fun i => r (e i)) c (rowComp e K))^[T] onesM
      = rowComp e ((sinkStep r c K)^[T] onesM) := by
  induction T with
  | zero => rfl
  | succ T ih =>
      rw [Function.iterate_succ_apply', Function.iterate_succ_apply', ih,
        rowComp_sinkStep]

/-! ## Lemmas about the float-semantics model

The first group reduces the arithmetic instances of `FP` to their
defining functions and establishes how the exact-finite predicates
`FP.isNN` and `FP.isPos` travel through the operations; note that `nan`
and the infinities satisfy neither predicate, so these lemmas track
exactly the inputs on which the float program never leaves ordinary
arithmetic. -/

theorem FP.mul_def (a b : FP) : a * b = FP.mul a b := rfl

theorem FP.add_def (a b : FP) : a + b = FP.add a b := rfl

theorem FP.zero_def : (0 : FP) = FP.fin 0 := rfl

theorem FP.one_def : (1 : FP) = FP.fin 1 := rfl

theorem FP.isPos.isNN {a : FP} (h : a.isPos) : a.isNN :=
  let ⟨q, hq, h0⟩ := h
  ⟨q, hq, le_of_lt h0⟩

theorem FP.isNN.add {a b : FP} (ha : a.isNN) (hb : b.isNN) : (a + b).isNN := by
  obtain ⟨x, rfl, hx⟩ := ha
  obtain ⟨y, rfl, hy⟩ := hb
  exact ⟨x + y, rfl, add_nonneg hx hy⟩

theorem FP.isNN.add_isPos {a b : FP} (ha : a.isNN) (hb : b.isPos) :
    (a + b).isPos := by
  obtain ⟨x, rfl, hx⟩ := ha
  obtain ⟨y, rfl, hy⟩ := hb
  exact ⟨x + y, rfl, add_pos_of_nonneg_of_pos hx hy⟩

theorem FP.isNN.mulNN {a b : FP} (ha : a.isNN) (hb : b.isNN) : (a * b).isNN := by
  obtain ⟨x, rfl, hx⟩ := ha
  obtain ⟨y, rfl, hy⟩ := hb
  exact ⟨x * y, rfl, mul_nonneg hx hy⟩

theorem FP.isPos.mulPos {a b : FP} (ha : a.isPos) (hb : b.isPos) : (a * b).isPos := by
  obtain ⟨x, rfl, hx⟩ := ha
  obtain ⟨y, rfl, hy⟩ := hb
  exact ⟨x * y, rfl, mul_pos hx hy⟩

theorem FP.isPos.recip {a : FP} (ha : a.isPos) : (FP.recip a).isPos := by
  obtain ⟨x, rfl, hx⟩ := ha
  have hne : x ≠ 0 := ne_of_gt hx
  refine ⟨x⁻¹, ?_, inv_pos.mpr hx⟩
  simp [FP.recip, hne]

theorem FP.isNN.isPos_of_pos {a : FP} (ha : a.isNN) (hp : FP.pos a) :
    a.isPos := by
  obtain ⟨x, rfl, hx⟩ := ha
  exact ⟨x, rfl, hp⟩

theorem FP.isNN_sum {α : Type} (s : Finset α) (f : α → FP)
    (h : ∀ a ∈ s, (f a).isNN) : (∑ a in s, f a).isNN := by
  classical
  revert h
  induction s using Finset.induction_on with
  | empty =>
      intro _
      rw [Finset.sum_empty]
      exact ⟨0, rfl, le_refl 0⟩
  | insert hna ih =>
      intro h
      rw [Finset.sum_insert hna]
      exact (h _ (Finset.mem_insert_self _ _)).add
        (ih fun a ha => h a (Finset.mem_insert_of_mem ha))

theorem FP.isPos_sum {α : Type} (s : Finset α) (f : α → FP)
    (h : ∀ a ∈ s, (f a).isNN) (a₀ : α) (ha₀ : a₀ ∈ s) (hp : (f a₀).isPos) :
    (∑ a in s, f a).isPos := by
  classical
  rw [← Finset.sum_erase_add s f ha₀]
  exact (FP.isNN_sum _ _ fun a ha => h a (Finset.mem_of_mem_erase ha)).add_isPos hp

/-- Closed form of the float-semantics `_uv_iteration`, as for the
embedding over `ℝ`. -/
theorem FloatModel.uv_iteration_iterate {ι κ γ : Type} [Fintype ι] [Fintype κ]
    [DecidableEq ι] (r : ι → FP) (c : Matrix κ γ FP) (M K : Matrix ι κ FP)
    (T : ℕ) :
    FloatModel.uv_iteration r c M K T =
      (FloatModel.recipM ((FloatModel.sinkStep r c K)^[T] FloatModel.onesM),
       FloatModel.emul c (FloatModel.recipM (Kᵀ * FloatModel.recipM
         ((FloatModel.sinkStep r c K)^[T] FloatModel.onesM)))) := by
  simp only [FloatModel.uv_iteration, foldl_range_const]
  rfl

theorem FloatModel.transpose_mul_isPos {ι κ γ : Type} [Fintype ι] [Nonempty ι]
    {K : Matrix ι κ FP} {z : Matrix ι γ FP} (hK : ∀ i t, (K i t).isPos)
    (hz : ∀ i j, (z i j).isPos) : ∀ t j, ((Kᵀ * z) t j).isPos := by
  intro t j
  rw [Matrix.mul_apply]
  obtain ⟨i0⟩ := ‹Nonempty ι›
  exact FP.isPos_sum _ _ (fun s _ => ((hK s t).mulPos (hz s j)).isNN) i0
    (Finset.mem_univ i0) ((hK i0 t).mulPos (hz i0 j))

theorem FloatModel.mul_isNN {α β γ' : Type} [Fintype β] {A : Matrix α β FP}
    {B : Matrix β γ' FP} (hA : ∀ i j, (A i j).isNN) (hB : ∀ i j, (B i j).isNN) :
    ∀ i j, ((A * B) i j).isNN := by
  intro i j
  rw [Matrix.mul_apply]
  exact FP.isNN_sum _ _ fun t _ => (hA i t).mulNN (hB t j)

theorem FloatModel.diag_mul_isPos {ι κ : Type} [Fintype ι] [DecidableEq ι]
    {r : ι → FP} {K : Matrix ι κ FP} (hr : ∀ i, (r i).isPos)
    (hK : ∀ i t, (K i t).isPos) :
    ∀ i t, ((Matrix.diagonal (fun i => FP.recip (r i)) * K) i t).isPos := by
  intro i t
  rw [Matrix.mul_apply]
  refine FP.isPos_sum _ _ (fun s _ => ?_) i (Finset.mem_univ i) ?_
  · rcases eq_or_ne i s with h | h
    · subst h
      rw [Matrix.diagonal_apply_eq]
      exact ((hr i).recip.mulPos (hK i t)).isNN
    · rw [Matrix.diagonal_apply_ne _ h]
      obtain ⟨q, hq, h0⟩ := hK s t
      rw [hq]
      exact ⟨0 * q, rfl, by simp⟩
  · rw [Matrix.diagonal_apply_eq]
    exact (hr i).recip.mulPos (hK i t)

/-- When the filtered reference is positive, the kernel is positive,
the targets are nonnegative, and every target column carries positive
mass, one float Sinkhorn update keeps the working matrix entrywise
finite and positive: no division by zero and no special value occurs. -/
theorem FloatModel.sinkStep_isPos {ι κ γ : Type} [Fintype ι] [Fintype κ]
    [DecidableEq ι] [Nonempty ι] {r : ι → FP} {c : Matrix κ γ FP}
    {K : Matrix ι κ FP} {x : Matrix ι γ FP} (hr : ∀ i, (r i).isPos)
    (hc : ∀ t j, (c t j).isNN) (hK : ∀ i t, (K i t).isPos)
    (hcol : ∀ j, ∃ t, (c t j).isPos) (hx : ∀ i j, (x i j).isPos) :
    ∀ i j, (FloatModel.sinkStep r c K x i j).isPos := by
  have hrecx : ∀ i j, ((FloatModel.recipM x) i j).isPos := fun i j => (hx i j).recip
  have hw : ∀ t j,
      ((FloatModel.recipM (Kᵀ * FloatModel.recipM x)) t j).isPos :=
    fun t j => (FloatModel.transpose_mul_isPos hK hrecx t j).recip
  have hcw : ∀ t j,
      ((FloatModel.emul c (FloatModel.recipM (Kᵀ * FloatModel.recipM x))) t j).isNN :=
    fun t j => (hc t j).mulNN (hw t j).isNN
  have hR := FloatModel.diag_mul_isPos hr hK
  intro i j
  show ((Matrix.diagonal (fun i => FP.recip (r i)) * K *
    FloatModel.emul c (FloatModel.recipM (Kᵀ * FloatModel.recipM x))) i j).isPos
  rw [Matrix.mul_apply]
  obtain ⟨t0, ht0⟩ := hcol j
  exact FP.isPos_sum _ _ (fun t _ => ((hR i t).isNN).mulNN (hcw t j)) t0
    (Finset.mem_univ t0) ((hR i t0).mulPos (ht0.mulPos (hw t0 j)))

theorem FloatModel.iterate_isPos {ι κ γ : Type} [Fintype ι] [Fintype κ]
    [DecidableEq ι] [Nonempty ι] {r : ι → FP} {c : Matrix κ γ FP}
    {K : Matrix ι κ FP} (hr : ∀ i, (r i).isPos) (hc : ∀ t j, (c t j).isNN)
    (hK : ∀ i t, (K i t).isPos) (hcol : ∀ j, ∃ t, (c t j).isPos) (T : ℕ) :
    ∀ i j, (((FloatModel.sinkStep r c K)^[T] FloatModel.onesM) i j).isPos := by
  induction T with
  | zero => exact fun i j => ⟨1, rfl, one_pos⟩
  | succ T ih =>
      rw [Function.iterate_succ_apply']
      exact FloatModel.sinkStep_isPos hr hc hK hcol ih

/-! ## The float trace on the all-zero target column

With `r = [1.0]`, `c = [[0.0]]`, `M = [[0.0]]` and `K = [[1.0]]`
(the kernel `exp(-1 * 0.0) = 1.0`, exact in binary64), every float
operation below is exact, so the model's trace is NumPy's trace. -/

/-- The first update sends the all-ones working matrix to `[[0.0]]`. -/
theorem FloatModel.sinkStep_fp_ones :
    FloatModel.sinkStep (FloatModel.filterVec fpOneV) fpZeroM
      (FloatModel.filterRows fpOneV fpOneM) FloatModel.onesM = fpZ := by
  ext i j
  norm_num [FloatModel.sinkStep, FloatModel.recipM, FloatModel.emul, FloatModel.onesM,
    FloatModel.filterVec, FloatModel.filterRows, fpZ, fpOneV, fpOneM, fpZeroM,
    Matrix.mul_apply, Matrix.diagonal_apply, Fin.sum_univ_one, Fintype.sum_unique,
    FP.recip, FP.mul, FP.add, FP.mul_def, FP.add_def, FP.zero_def, FP.one_def,
    eq_iff_true_of_subsingleton]

/-- The zero working matrix is a fixed point of the update:
`np.reciprocal(0.0) = inf`, `1.0 * inf = inf`, `1/inf = 0.0`,
`0.0 * 0.0 = 0.0`. -/
theorem FloatModel.sinkStep_fp_zero :
    FloatModel.sinkStep (FloatModel.filterVec fpOneV) fpZeroM
      (FloatModel.filterRows fpOneV fpOneM) fpZ = fpZ := by
  ext i j
  norm_num [FloatModel.sinkStep, FloatModel.recipM, FloatModel.emul, FloatModel.onesM,
    FloatModel.filterVec, FloatModel.filterRows, fpZ, fpOneV, fpOneM, fpZeroM,
    Matrix.mul_apply, Matrix.diagonal_apply, Fin.sum_univ_one, Fintype.sum_unique,
    FP.recip, FP.mul, FP.add, FP.mul_def, FP.add_def, FP.zero_def, FP.one_def,
    eq_iff_true_of_subsingleton]

/-- After any positive number of updates the working matrix is `[[0.0]]`. -/
theorem FloatModel.iterate_fp_zero :
    ∀ T, (FloatModel.sinkStep (FloatModel.filterVec fpOneV) fpZeroM
      (FloatModel.filterRows fpOneV fpOneM))^[T + 1] FloatModel.onesM = fpZ := by
  intro T
  induction T with
  | zero => rw [Function.iterate_one]; exact FloatModel.sinkStep_fp_ones
  | succ T ih =>
      rw [Function.iterate_succ_apply', ih, FloatModel.sinkStep_fp_zero]

/-! ## Claim theorems -/

/-- C1: for every strictly positive reference vector `r`, nonnegative
target matrix `c`, kernel `K` with all entries nonzero, and iteration
count `T`, `_uv_iteration` initializes `x` to all ones, precomputes
`R = diag(1/r)·K` once, performs exactly `T` updates
`x ← R·(c ⊙ 1/(Kᵀ·(1/x)))`, and returns `u = 1/x` and
`v = c ⊙ 1/(Kᵀ·u)` — i.e. it computes exactly the algorithm of §4.2
of the spec, for any distance matrix `M` (which it never reads). -/
theorem uv_iteration_matches_spec {n m k : ℕ} (r : Fin n → ℝ)
    (c : Matrix (Fin m) (Fin k) ℝ) (M K : Matrix (Fin n) (Fin m) ℝ) (T : ℕ)
    (hr : ∀ i, 0 < r i) (hc : ∀ i j, 0 ≤ c i j) (hK : ∀ i j, K i j ≠ 0) :
    uv_iteration r c M K T = uv_iteration_spec r c K T := by
  rw [uv_iteration_eq]
  rfl

/-- Witness for C1 at a concrete input. -/
theorem uv_iteration_matches_spec_witness :
    (∀ i : Fin 1, 0 < oneVec1 i) ∧
      uv_iteration oneVec1 oneMat11 zeroMat11 oneMat11 2 =
        uv_iteration_spec oneVec1 oneMat11 oneMat11 2 :=
  ⟨fun _ => one_pos,
   uv_iteration_matches_spec oneVec1 oneMat11 zeroMat11 oneMat11 2
     (fun _ => one_pos) (fun _ _ => zero_le_one) (fun _ _ => one_ne_zero)⟩

/-- C4: for every `r`, `c`, `M`, `λ > 0` and iteration count `T`, the
kernel-building entry point `sinkhorn` agrees exactly with the
precomputed-kernel entry point `sinkhorn_mk` applied to the kernel
`K = exp(-λ·M)` built elementwise from `M` and `λ`. -/
theorem sinkhorn_kernel_consistency {n m k : ℕ} (r : Fin n → ℝ)
    (c : Matrix (Fin m) (Fin k) ℝ) (M : Matrix (Fin n) (Fin m) ℝ) (l : ℝ)
    (T : ℕ) (hl : 0 < l) :
    sinkhorn r c M l T =
      sinkhorn_mk r c M (Matrix.of fun i j => Real.exp (-l * M i j)) T :=
  rfl

/-- Witness for C4 at a concrete input. -/
theorem sinkhorn_kernel_consistency_witness :
    (0 : ℝ) < 1 ∧
      sinkhorn oneVec1 oneMat11 zeroMat11 1 3 =
        sinkhorn_mk oneVec1 oneMat11 zeroMat11
          (Matrix.of fun i j => Real.exp (-1 * zeroMat11 i j)) 3 :=
  ⟨one_pos, sinkhorn_kernel_consistency oneVec1 oneMat11 zeroMat11 1 3 one_pos⟩

/-- C6: for every reference vector of length `n` and batch of `k`
target measures, both divergence entry points return a sequence of
exactly `k` values, however many entries of `r` are zero. -/
theorem divergence_length_eq_k {n m k : ℕ} (r : Fin n → ℝ)
    (c : Matrix (Fin m) (Fin k) ℝ) (M K : Matrix (Fin n) (Fin m) ℝ)
    (l : ℝ) (T : ℕ) :
    (List.ofFn (sinkhorn r c M l T)).length = k ∧
      (List.ofFn (sinkhorn_mk r c M K T)).length = k := by
  simp

/-- C9: the gradient entry point never depends on the distance matrix:
`Dsinkhorn_reg` filters `M` and hands it to `_uv_iteration`, which
never reads it, and the readout uses only `u`, `λ` and the zero
pattern of `r`. -/
theorem Dsinkhorn_reg_independent_of_M {n m k : ℕ} (r : Fin n → ℝ)
    (c : Matrix (Fin m) (Fin k) ℝ) (M M' : Matrix (Fin n) (Fin m) ℝ)
    (l : ℝ) (K : Matrix (Fin n) (Fin m) ℝ) (T : ℕ) :
    Dsinkhorn_reg r c M l K T = Dsinkhorn_reg r c M' l K T :=
  rfl

/-- C10: when every entry of `r` is zero the divergence entry points
still return a length-`k` result, and every entry of it is zero: the
filter leaves no rows and the final sum is empty. -/
theorem divergence_zero_reference {n m k : ℕ} (r : Fin n → ℝ)
    (c : Matrix (Fin m) (Fin k) ℝ) (M K : Matrix (Fin n) (Fin m) ℝ)
    (l : ℝ) (T : ℕ) (h : ∀ i, r i = 0) :
    ((List.ofFn (sinkhorn_mk r c M K T)).length = k ∧
      ∀ j, sinkhorn_mk r c M K T j = 0) ∧
    ((List.ofFn (sinkhorn r c M l T)).length = k ∧
      ∀ j, sinkhorn r c M l T j = 0) := by
  haveI hemp : IsEmpty (posIdx r) :=
    ⟨fun i => absurd i.prop (by rw [h i.val]; exact lt_irrefl 0)⟩
  have key : ∀ (K' : Matrix (Fin n) (Fin m) ℝ) (j : Fin k),
      sinkhorn_mk r c M K' T j = 0 := by
    intro K' j
    simp [sinkhorn_mk, Finset.univ_eq_empty]
  exact ⟨⟨by simp, key K⟩, by simp, fun j => key _ j⟩

/-- C5: batching does not change per-column results: entry `j` of the
divergence of a `k`-column batch `c` equals the single entry of the
divergence of the one-column batch `c[:, j:j+1]`. -/
theorem sinkhorn_batch_independence {n m k : ℕ} (r : Fin n → ℝ)
    (c : Matrix (Fin m) (Fin k) ℝ) (M : Matrix (Fin n) (Fin m) ℝ) (l : ℝ)
    (T : ℕ) (j : Fin k) :
    sinkhorn r c M l T j = sinkhorn r (colM c j) M l T 0 :=
  sinkhorn_mk_column r c M (Matrix.of fun i j => Real.exp (-l * M i j)) T j

/-- C2: for a nonnegative reference vector, `sinkhorn_mk` drops exactly
the rows where `r` is zero (the code keeps `r i > 0`, the spec drops
`r i = 0`; these agree when `r` is nonnegative), runs the iteration on
the filtered inputs, and returns per measure the sum over the remaining
source locations of `u ⊙ ((K ⊙ M)·v)`; a flat `c` is reshaped to an
`(m × 1)` table first. -/
theorem sinkhorn_mk_matches_spec {n m k : ℕ} (r : Fin n → ℝ)
    (c : Matrix (Fin m) (Fin k) ℝ) (M K : Matrix (Fin n) (Fin m) ℝ)
    (T : ℕ) (hr : ∀ i, 0 ≤ r i) :
    sinkhorn_mk r c M K T = sinkhorn_mk_spec r c M K T ∧
      ∀ c₀ : Fin m → ℝ,
        sinkhorn_mk_flat r c₀ M K T = sinkhorn_mk r (reshapeC c₀) M K T := by
  refine ⟨?_, fun _ => rfl⟩
  have hX : (sinkStep (filterVec r) c (filterRows r K))^[T] onesM
      = rowComp (posNzEquiv r hr)
          ((sinkStep (dropZeroVec r) c (dropZeroRows r K))^[T] onesM) :=
    rowComp_sinkStep_iterate (posNzEquiv r hr) (dropZeroVec r) c
      (dropZeroRows r K) T
  have hK : filterRows r K = rowComp (posNzEquiv r hr) (dropZeroRows r K) := rfl
  have hM : filterRows r M = rowComp (posNzEquiv r hr) (dropZeroRows r M) := rfl
  funext j
  simp only [sinkhorn_mk, sinkhorn_mk_spec, uv_iteration_eq]
  rw [hX, hK, hM, rowComp_recipM, rowComp_transpose_mul, rowComp_emul,
    rowComp_mul, rowComp_emul]
  exact Equiv.sum_comp (posNzEquiv r hr) fun i' =>
    (emul (recipM ((sinkStep (dropZeroVec r) c (dropZeroRows r K))^[T] onesM))
      (emul (dropZeroRows r K) (dropZeroRows r M) *
        emul c (recipM ((dropZeroRows r K)ᵀ *
          recipM ((sinkStep (dropZeroVec r) c (dropZeroRows r K))^[T] onesM))))) i' j

/-- Witness for C2 at a concrete input. -/
theorem sinkhorn_mk_matches_spec_witness :
    (∀ i : Fin 1, 0 ≤ oneVec1 i) ∧
      (sinkhorn_mk oneVec1 oneMat11 zeroMat11 oneMat11 2 =
          sinkhorn_mk_spec oneVec1 oneMat11 zeroMat11 oneMat11 2 ∧
        ∀ c₀ : Fin 1 → ℝ,
          sinkhorn_mk_flat oneVec1 c₀ zeroMat11 oneMat11 2 =
            sinkhorn_mk oneVec1 (reshapeC c₀) zeroMat11 oneMat11 2) :=
  ⟨fun _ => zero_le_one,
   sinkhorn_mk_matches_spec oneVec1 oneMat11 zeroMat11 oneMat11 2
     fun _ => zero_le_one⟩

/-- C7 counterexample: at `r = [1.0]`, `c = [[0.0]]`, `M = [[0.0]]`,
`λ = 1` — so `K = exp(-λ·M) = [[1.0]]`, exact even in binary64 — and
the default `T = 20`, the float program returns NaN: the first update
makes `x = [[0.0]]`, `np.reciprocal` then yields `inf`, and the readout
multiplies `inf` by `0.0`.  NaN fails the comparison `>= 0`, although
every hypothesis of the claim (nonnegative `r`, `c`, `M`, positive `λ`)
holds at this input. -/
theorem sinkhorn_mk_nan_on_zero_column :
    FloatModel.sinkhorn_mk fpOneV fpZeroM fpZeroM fpOneM 20 0 = FP.nan ∧
      ¬ FP.nonneg (FloatModel.sinkhorn_mk fpOneV fpZeroM fpZeroM fpOneM 20 0) := by
  have h : FloatModel.sinkhorn_mk fpOneV fpZeroM fpZeroM fpOneM 20 0 = FP.nan := by
    simp only [FloatModel.sinkhorn_mk, FloatModel.uv_iteration_iterate]
    rw [show (20 : ℕ) = 19 + 1 from rfl, FloatModel.iterate_fp_zero 19]
    norm_num [FloatModel.recipM, FloatModel.emul, FloatModel.filterVec,
      FloatModel.filterRows, fpZ, fpOneV, fpOneM, fpZeroM, Matrix.mul_apply,
      Fin.sum_univ_one, Fintype.sum_unique, FP.recip, FP.mul, FP.add,
      FP.mul_def, FP.add_def, FP.zero_def, FP.one_def]
  refine ⟨h, fun hnn => ?_⟩
  rw [h] at hnn
  exact hnn

/-- C7 (amended): in float semantics, for every reference vector of
finite nonnegative entries, target matrix of finite nonnegative entries
in which every column carries a strictly positive entry, distance
matrix of finite nonnegative entries, and kernel of finite strictly
positive entries (as `exp(-λ·M)` is for `λ > 0`, absent underflow),
every value returned by the precomputed-kernel divergence entry point
is a finite nonnegative real: the iteration never divides by zero, so
no infinity or NaN is produced.  Without the positive-mass-per-column
hypothesis the program can instead return NaN (see the counterexample). -/
theorem sinkhorn_mk_nonneg_of_pos_columns {n m k : ℕ} (r : Fin n → FP)
    (c : Matrix (Fin m) (Fin k) FP) (M K : Matrix (Fin n) (Fin m) FP) (T : ℕ)
    (hr : ∀ i, (r i).isNN) (hc : ∀ i j, (c i j).isNN) (hM : ∀ i j, (M i j).isNN)
    (hK : ∀ i j, (K i j).isPos) (hcol : ∀ j, ∃ i, (c i j).isPos) :
    ∀ j, ∃ q : ℚ, FloatModel.sinkhorn_mk r c M K T j = FP.fin q ∧ 0 ≤ q := by
  intro j
  by_cases hne : Nonempty (FloatModel.posIdx r)
  · haveI := hne
    have hr' : ∀ i : FloatModel.posIdx r, ((FloatModel.filterVec r) i).isPos :=
      fun i => (hr i.val).isPos_of_pos i.prop
    have hK' : ∀ (i : FloatModel.posIdx r) t,
        ((FloatModel.filterRows r K) i t).isPos := fun i t => hK i.val t
    have hM' : ∀ (i : FloatModel.posIdx r) t,
        ((FloatModel.filterRows r M) i t).isNN := fun i t => hM i.val t
    have hX := FloatModel.iterate_isPos hr' hc hK' hcol T
    have hu : ∀ (i : FloatModel.posIdx r) j',
        ((FloatModel.recipM ((FloatModel.sinkStep (FloatModel.filterVec r) c
          (FloatModel.filterRows r K))^[T] FloatModel.onesM)) i j').isPos :=
      fun i j' => (hX i j').recip
    have hv : ∀ t j',
        ((FloatModel.emul c (FloatModel.recipM ((FloatModel.filterRows r K)ᵀ *
          FloatModel.recipM ((FloatModel.sinkStep (FloatModel.filterVec r) c
            (FloatModel.filterRows r K))^[T] FloatModel.onesM)))) t j').isNN :=
      fun t j' => (hc t j').mulNN
        ((FloatModel.transpose_mul_isPos hK' hu t j').recip).isNN
    have hKM : ∀ (i : FloatModel.posIdx r) t,
        ((FloatModel.emul (FloatModel.filterRows r K)
          (FloatModel.filterRows r M)) i t).isNN :=
      fun i t => (hK' i t).isNN.mulNN (hM' i t)
    simp only [FloatModel.sinkhorn_mk, FloatModel.uv_iteration_iterate]
    exact FP.isNN_sum _ _ fun i _ =>
      (hu i j).isNN.mulNN (FloatModel.mul_isNN hKM hv i j)
  · haveI : IsEmpty (FloatModel.posIdx r) := not_nonempty_iff.mp hne
    refine ⟨0, ?_, le_refl 0⟩
    have hz : FloatModel.sinkhorn_mk r c M K T j = 0 := by
      simp [FloatModel.sinkhorn_mk, Finset.univ_eq_empty]
    rw [hz]
    rfl

/-- Witness for the amended C7 at a concrete input. -/
theorem sinkhorn_mk_nonneg_of_pos_columns_witness :
    ((∀ i : Fin 1, (fpOneV i).isNN) ∧ (∀ i j, (fpOneM i j).isPos) ∧
      (∀ j : Fin 1, ∃ i, (fpOneM i j).isPos)) ∧
      ∀ j, ∃ q : ℚ,
        FloatModel.sinkhorn_mk fpOneV fpOneM fpZeroM fpOneM 2 j = FP.fin q ∧
          0 ≤ q :=
  ⟨⟨fun _ => ⟨1, rfl, zero_le_one⟩, fun _ _ => ⟨1, rfl, one_pos⟩,
    fun _ => ⟨0, ⟨1, rfl, one_pos⟩⟩⟩,
   sinkhorn_mk_nonneg_of_pos_columns fpOneV fpOneM fpZeroM fpOneM 2
     (fun _ => ⟨1, rfl, zero_le_one⟩) (fun _ _ => ⟨1, rfl, zero_le_one⟩)
     (fun _ _ => ⟨0, rfl, le_refl 0⟩) (fun _ _ => ⟨1, rfl, one_pos⟩)
     (fun _ => ⟨0, ⟨1, rfl, one_pos⟩⟩)⟩

/-- C3: for a nonnegative reference vector with at least one positive
entry, the gradient entry point returns an `(n × k)` table (row count
equal to the original pre-filtering `n`) in which every row with
`r i = 0` is the zero vector and every row with `r i > 0` holds the
dual potential `log(u)/λ` read off from the scaling matrix `u` of the
iteration on the zero-filtered inputs. -/
theorem Dsinkhorn_reg_rows {n m k : ℕ} (r : Fin n → ℝ)
    (c : Matrix (Fin m) (Fin k) ℝ) (M : Matrix (Fin n) (Fin m) ℝ) (l : ℝ)
    (K : Matrix (Fin n) (Fin m) ℝ) (T : ℕ) (hr : ∀ i, 0 ≤ r i)
    (hpos : ∃ i, 0 < r i) :
    (List.ofFn fun i => Dsinkhorn_reg r c M l K T i).length = n ∧
      ∀ (i : Fin n) (j : Fin k),
        (r i = 0 → Dsinkhorn_reg r c M l K T i j = 0) ∧
        ∀ h : 0 < r i,
          Dsinkhorn_reg r c M l K T i j =
            Real.log ((uv_iteration (filterVec r) c (filterRows r M)
              (filterRows r K) T).1 ⟨i, h⟩ j) / l := by
  refine ⟨by simp, fun i j => ⟨fun h0 => ?_, fun h => ?_⟩⟩
  · simp [Dsinkhorn_reg, h0]
  · simp only [Dsinkhorn_reg, Matrix.of_apply]
    rw [dif_pos h]

/-- Witness for C3 at a concrete input. -/
theorem Dsinkhorn_reg_rows_witness :
    ((∀ i : Fin 1, 0 ≤ oneVec1 i) ∧ (∃ i : Fin 1, 0 < oneVec1 i)) ∧
      ((List.ofFn fun i => Dsinkhorn_reg oneVec1 oneMat11 zeroMat11 1 oneMat11 2 i).length = 1 ∧
        ∀ (i : Fin 1) (j : Fin 1),
          (oneVec1 i = 0 → Dsinkhorn_reg oneVec1 oneMat11 zeroMat11 1 oneMat11 2 i j = 0) ∧
          ∀ h : 0 < oneVec1 i,
            Dsinkhorn_reg oneVec1 oneMat11 zeroMat11 1 oneMat11 2 i j =
              Real.log ((uv_iteration (filterVec oneVec1) oneMat11
                (filterRows oneVec1 zeroMat11) (filterRows oneVec1 oneMat11) 2).1
                ⟨i, h⟩ j) / 1) :=
  ⟨⟨fun _ => zero_le_one, ⟨0, one_pos⟩⟩,
   Dsinkhorn_reg_rows oneVec1 oneMat11 zeroMat11 1 oneMat11 2
     (fun _ => zero_le_one) ⟨0, one_pos⟩⟩

/-- Witness for C10 at a concrete input. -/
theorem divergence_zero_reference_witness :
    (∀ i : Fin 1, zeroVec1 i = 0) ∧
      (((List.ofFn (sinkhorn_mk zeroVec1 oneMat11 oneMat11 oneMat11 4)).length = 1 ∧
        ∀ j, sinkhorn_mk zeroVec1 oneMat11 oneMat11 oneMat11 4 j = 0) ∧
       ((List.ofFn (sinkhorn zeroVec1 oneMat11 oneMat11 1 4)).length = 1 ∧
        ∀ j, sinkhorn zeroVec1 oneMat11 oneMat11 1 4 j = 0)) :=
  ⟨fun _ => rfl,
   divergence_zero_reference zeroVec1 oneMat11 oneMat11 oneMat11 1 4 fun _ => rfl⟩

end


